import Mathlib

/-!
Verification of the CloudEvents `sdk-go` v0.2 HTTP codec and of the AMQP
binding receiver, shallowly embedded in Lean.

The AMQP binding receiver is embedded from `protocol/amqp/v2/receiver.go`.
The v0.2 HTTP codec (`CodecV02.Encode` / `CodecV02.Decode`) is not part of
the source tree; only its test file
`pkg/cloudevents/transport/http/codec_v02_test.go` is.  Its definitions
below are therefore modelled from the specification (sections 4.2 and 4.3),
pinned down where the tests speak by the concrete inputs and outputs of
`TestCodecV02_Encode` and `TestCodecV02_Decode`.
-/

/-- ASCII lower-casing of a single character, as Go's `textproto` does it:
characters in `A`..`Z` are shifted by 32, everything else is unchanged. -/
def lcChar (c : Char) : Char :=
  if 65 ≤ c.toNat ∧ c.toNat ≤ 90 then Char.ofNat (c.toNat + 32) else c

/-- ASCII upper-casing of a single character. -/
def ucChar (c : Char) : Char :=
  if 97 ≤ c.toNat ∧ c.toNat ≤ 122 then Char.ofNat (c.toNat - 32) else c

/-- Character stream of Go's `textproto.CanonicalMIMEHeaderKey`: the first
character of each dash-separated segment is upper-cased, all other
characters are lower-cased.  The `Bool` flag records whether the next
character starts a segment. -/
def canonChars : Bool → List Char → List Char
  | _, [] => []
  | up, c :: cs =>
    if c = '-' then '-' :: canonChars true cs
    else (if up then ucChar c else lcChar c) :: canonChars false cs

/-- Canonical MIME header key, e.g. `canonicalMIMEHeaderKey "ce-id" = "Ce-Id"`. -/
def canonicalMIMEHeaderKey (s : String) : String := ⟨canonChars true s.data⟩

/-- Lower-cased header key, used for case-insensitive lookup. -/
def lowerKey (s : String) : String := ⟨s.data.map lcChar⟩

/-- JSON string escaping of the two characters that must be escaped in the
minimal JSON fragment the codec produces: `"` and `\`. -/
def escapeChars : List Char → List Char
  | [] => []
  | c :: cs =>
    if c = '"' ∨ c = '\\' then '\\' :: c :: escapeChars cs
    else c :: escapeChars cs

/-- JSON encoding of a string value: a quoted, escaped JSON string literal
(`"apple"` for `apple`), as `json.Marshal` produces for a Go string. -/
def jsonQuote (s : String) : String := ⟨'"' :: (escapeChars s.data ++ ['"'])⟩

/-- Inverse of `escapeChars` on the characters following the opening quote:
consumes the closing quote and undoes escapes; `none` on malformed input. -/
def unquoteChars : List Char → Option (List Char)
  | [] => none
  | c :: cs =>
    if c = '"' then (if cs = [] then some [] else none)
    else if c = '\\' then
      match cs with
      | [] => none
      | c2 :: cs2 => (unquoteChars cs2).map fun l => c2 :: l
    else (unquoteChars cs).map fun l => c :: l

/-- Parse a JSON string literal back to the string value it denotes. -/
def jsonUnquote (s : String) : Option String :=
  match s.data with
  | '"' :: rest => (unquoteChars rest).map fun l => (⟨l⟩ : String)
  | _ => none

/-- Split a character list at its first dash: `breakDash l = (before, rest)`
where `rest = some after` if a dash occurs and `none` otherwise. -/
def breakDash : List Char → List Char × Option (List Char)
  | [] => ([], none)
  | c :: cs =>
    if c = '-' then ([], some cs)
    else
      let p := breakDash cs
      (c :: p.1, p.2)

/-- Remainder of `l` after the literal `p`, when `p` heads `l`; Go's
`strings.TrimPrefix` restricted to the case where the test succeeds. -/
def dropLit : List Char → List Char → Option (List Char)
  | [], l => some l
  | _ :: _, [] => none
  | a :: ps, b :: ls => if a = b then dropLit ps ls else none

/-- Go's `strings.HasPrefix s pre`. -/
def goHasPre (s pre : String) : Bool :=
  (dropLit pre.data s.data).isSome

/-- Extension attribute value: the shapes the v0.2 event model stores in its
untyped extension bag.  `scalar` is a plain string value, `mapping` a
one-or-more-level nested mapping, and `strList` the raw list-of-string wire
representation that binary `Decode` produces for the children of a
two-segment extension header. -/
inductive ExtValue where
  | scalar (s : String)
  | strList (vs : List String)
  | mapping (m : List (String × ExtValue))

mutual

/-- JSON literal text of an extension value: strings are quoted, mappings
become one JSON object literal (used when a nested mapping is emitted
un-flattened), string lists become a JSON array of strings. -/
def jsonValLit : ExtValue → String
  | .scalar s => jsonQuote s
  | .strList vs => "[" ++ String.intercalate "," (vs.map jsonQuote) ++ "]"
  | .mapping m => "\x7b" ++ jsonFieldsLit m ++ "\x7d"

/-- Comma-separated `"key":value` field list of a JSON object literal. -/
def jsonFieldsLit : List (String × ExtValue) → String
  | [] => ""
  | [(k, v)] => jsonQuote k ++ ":" ++ jsonValLit v
  | (k, v) :: p :: rest => jsonQuote k ++ ":" ++ jsonValLit v ++ "," ++ jsonFieldsLit (p :: rest)

end

/-- Event context of spec version 0.2, mirroring the Go struct
`canonical.EventContextV02` field for field.  Optional attributes use
`Option`; `contentType` keeps Go's empty-string-means-unset convention.
Times are carried as their RFC3339Nano-formatted text. -/
structure EventContextV02 where
  specVersion : String
  type_ : String
  source : String
  id : String
  time : Option String
  schemaURL : Option String
  contentType : String
  extensions : List (String × ExtValue)

/-- Event: a v0.2 context plus optional data payload, the payload carried as
its canonical JSON bytes. -/
structure Event where
  context : EventContextV02
  data : Option String

/-- Binary-mode HTTP message: metadata headers (each key mapping to a list
of string values) plus a raw body. -/
structure HttpMessage where
  header : List (String × List String)
  body : String

/-- JSON value shape used by the structured-mode envelope.  `raw` carries a
fragment of already-serialized JSON verbatim (how the `data` attribute is
embedded). -/
inductive JsonValue where
  | str (s : String)
  | raw (s : String)
  | obj (o : List (String × JsonValue))
  | arr (vs : List JsonValue)

/-- Structured-mode message: a content type plus one JSON envelope document,
the document modelled as its top-level field list. -/
structure StructuredMessage where
  contentType : String
  body : List (String × JsonValue)

/-- Modelled from the spec: the missing `CodecV02` binary-mode encoding of a
single extension attribute (spec 4.2).  A scalar extension becomes one
`Ce-<Name>` entry holding the JSON encoding of the scalar; a mapping is
flattened exactly one level into `Ce-<Name>-<Child>` entries, a child that
is itself a mapping staying one JSON object literal.  Keys are canonical
MIME header keys, as Go's `http.Header.Set` produces. -/
def encodeExtHeaders (name : String) (v : ExtValue) : List (String × List String) :=
  match v with
  | .mapping m =>
    m.map fun p => (canonicalMIMEHeaderKey ("ce-" ++ name ++ "-" ++ p.1), [jsonValLit p.2])
  | v => [(canonicalMIMEHeaderKey ("ce-" ++ name), [jsonValLit v])]

/-- Modelled from the spec: the missing `CodecV02.Encode` in binary mode
(spec 4.2, pinned by `TestCodecV02_Encode`).  Every present core attribute
becomes one `Ce-`-prefixed header; the content type goes to the plain
`Content-Type` header, defaulting to `application/json`; extension
attributes are flattened by `encodeExtHeaders`; the data bytes become the
body. -/
def encodeBinaryV02 (e : Event) : HttpMessage :=
  { header :=
      [(canonicalMIMEHeaderKey "ce-specversion", ["0.2"]),
       (canonicalMIMEHeaderKey "ce-id", [e.context.id])]
      ++ (match e.context.time with
          | some t => [(canonicalMIMEHeaderKey "ce-time", [t])]
          | none => [])
      ++ [(canonicalMIMEHeaderKey "ce-type", [e.context.type_]),
          (canonicalMIMEHeaderKey "ce-source", [e.context.source])]
      ++ (match e.context.schemaURL with
          | some u => [(canonicalMIMEHeaderKey "ce-schemaurl", [u])]
          | none => [])
      ++ (e.context.extensions.map fun p => encodeExtHeaders p.1 p.2).flatten
      ++ [("Content-Type",
           [if e.context.contentType = "" then "application/json" else e.context.contentType])],
    body := e.data.getD "" }

/-- Modelled from the spec: binary `Decode`'s treatment of a one-segment
extension header value — the JSON string literal is parsed back to the
scalar it denotes, other values are kept as raw text. -/
def decodeScalarV (v : String) : ExtValue :=
  match jsonUnquote v with
  | some s => ExtValue.scalar s
  | none => ExtValue.scalar v

/-- Modelled from the spec: binary `Decode`'s reconstruction of a
two-segment extension header `<name>-<child>`: the child key is added to
the mapping already collected under `name` (created if absent), its value
being the raw metadata string list `vs`, deliberately not re-parsed. -/
def addChild (exts : List (String × ExtValue)) (name child : String) (vs : List String) :
    List (String × ExtValue) :=
  match exts with
  | [] => [(name, ExtValue.mapping [(child, ExtValue.strList vs)])]
  | (n, v) :: rest =>
    if n = name then
      match v with
      | ExtValue.mapping m => (n, ExtValue.mapping (m ++ [(child, ExtValue.strList vs)])) :: rest
      | _ => (n, ExtValue.mapping [(child, ExtValue.strList vs)]) :: rest
    else (n, v) :: addChild rest name child vs

/-- Context with every attribute still unset (Go zero value). -/
def emptyContextV02 : EventContextV02 :=
  { specVersion := "", type_ := "", source := "", id := "", time := none,
    schemaURL := none, contentType := "", extensions := [] }

/-- Modelled from the spec: one step of the missing binary-mode
`CodecV02.Decode` (spec 4.2, pinned by `TestCodecV02_Decode`).  Header keys
are looked up case-insensitively; `Content-Type` feeds the content type;
`ce-`-prefixed keys are matched against the core attribute names first and
otherwise treated as extensions, splitting at the first dash. -/
def decodeHeaderCore (acc : EventContextV02) (k : List Char) (vs : List String) :
    EventContextV02 :=
  let v := vs.headD ""
  if k = "content-type".data then { acc with contentType := v }
  else
    match dropLit "ce-".data k with
    | none => acc
    | some rest =>
      match breakDash rest with
      | (nm, none) =>
        if nm = "specversion".data then { acc with specVersion := v }
        else if nm = "id".data then { acc with id := v }
        else if nm = "type".data then { acc with type_ := v }
        else if nm = "source".data then { acc with source := v }
        else if nm = "time".data then { acc with time := some v }
        else if nm = "schemaurl".data then { acc with schemaURL := some v }
        else { acc with extensions := acc.extensions ++ [(⟨nm⟩, decodeScalarV v)] }
      | (nm, some child) =>
        { acc with extensions := addChild acc.extensions ⟨nm⟩ ⟨child⟩ vs }

/-- One decode step on a raw header entry: the key is lower-cased for the
case-insensitive lookup and handed to `decodeHeaderCore`. -/
def decodeHeader (acc : EventContextV02) (kv : String × List String) : EventContextV02 :=
  decodeHeaderCore acc (kv.1.data.map lcChar) kv.2

/-- Context produced by folding binary `Decode` over the message headers. -/
def decodeBinaryCtx (m : HttpMessage) : EventContextV02 :=
  m.header.foldl decodeHeader emptyContextV02

/-- Error kinds of the codec (spec section 7); only the ones the modelled
operations can produce are carried. -/
inductive CodecError where
  | missingRequiredAttribute
  | unknownEncoding
deriving DecidableEq

/-- Required core attributes are all present (spec section 3 invariant). -/
def requiredPresent (c : EventContextV02) : Bool :=
  c.specVersion != "" && c.id != "" && c.type_ != "" && c.source != ""

/-- Modelled from the spec: the missing binary-mode `CodecV02.Decode`
(spec 4.2): fold the headers, attach the body as data, fail on a missing
required core attribute. -/
def decodeBinaryV02 (m : HttpMessage) : Except CodecError Event :=
  let c := decodeBinaryCtx m
  if requiredPresent c then
    Except.ok { context := c, data := if m.body = "" then none else some m.body }
  else Except.error CodecError.missingRequiredAttribute

mutual

/-- Extension value rendered as a structured-envelope JSON value. -/
def extToJson : ExtValue → JsonValue
  | .scalar s => JsonValue.str s
  | .strList vs => JsonValue.arr (vs.map JsonValue.str)
  | .mapping m => JsonValue.obj (extFieldsToJson m)

/-- Field-wise image of `extToJson` over a mapping. -/
def extFieldsToJson : List (String × ExtValue) → List (String × JsonValue)
  | [] => []
  | (k, v) :: rest => (k, extToJson v) :: extFieldsToJson rest

end

mutual

/-- Serialization of a `JsonValue` to JSON text. -/
def jsonSerialize : JsonValue → String
  | .str s => jsonQuote s
  | .raw s => s
  | .obj o => "\x7b" ++ jsonObjFields o ++ "\x7d"
  | .arr vs => "[" ++ jsonArrItems vs ++ "]"

/-- Comma-separated field list of a serialized JSON object. -/
def jsonObjFields : List (String × JsonValue) → String
  | [] => ""
  | [(k, v)] => jsonQuote k ++ ":" ++ jsonSerialize v
  | (k, v) :: p :: rest => jsonQuote k ++ ":" ++ jsonSerialize v ++ "," ++ jsonObjFields (p :: rest)

/-- Comma-separated item list of a serialized JSON array. -/
def jsonArrItems : List JsonValue → String
  | [] => ""
  | [v] => jsonSerialize v
  | v :: w :: rest => jsonSerialize v ++ "," ++ jsonArrItems (w :: rest)

end

/-- String content of a JSON value: string-shaped values yield their text,
anything else its serialization. -/
def jsonAsString : JsonValue → String
  | .str s => s
  | .raw s => s
  | v => jsonSerialize v

mutual

/-- Modelled from the spec: structured `Decode`'s conversion of an envelope
field value into an extension value — `Scalar` or `Mapping` depending on
its JSON shape (spec 4.3). -/
def jsonToExt : JsonValue → ExtValue
  | .str s => ExtValue.scalar s
  | .raw s => ExtValue.scalar s
  | .arr vs => ExtValue.strList (vs.map jsonAsString)
  | .obj o => ExtValue.mapping (jsonFieldsToExt o)

/-- Field-wise image of `jsonToExt` over an object. -/
def jsonFieldsToExt : List (String × JsonValue) → List (String × ExtValue)
  | [] => []
  | (k, v) :: rest => (k, jsonToExt v) :: jsonFieldsToExt rest

end

/-- Modelled from the spec: the missing `CodecV02.Encode` in structured mode
(spec 4.3, pinned by `TestCodecV02_Encode`): one JSON envelope carrying the
core attributes by name, the data embedded verbatim, and — as the shown
encode behavior has it — the extension attributes nested under the reserved
key `-`; content type fixed to `application/cloudevents+json`. -/
def encodeStructuredV02 (e : Event) : StructuredMessage :=
  { contentType := "application/cloudevents+json",
    body :=
      [("specversion", JsonValue.str "0.2"), ("id", JsonValue.str e.context.id),
       ("type", JsonValue.str e.context.type_), ("source", JsonValue.str e.context.source)]
      ++ (match e.context.time with | some t => [("time", JsonValue.str t)] | none => [])
      ++ (match e.context.schemaURL with
          | some u => [("schemaurl", JsonValue.str u)]
          | none => [])
      ++ (if e.context.contentType = "" then []
          else [("contenttype", JsonValue.str e.context.contentType)])
      ++ (match e.data with | some d => [("data", JsonValue.raw d)] | none => [])
      ++ (if e.context.extensions.isEmpty then []
          else [("-", JsonValue.obj (extFieldsToJson e.context.extensions))]) }

/-- Modelled from the spec: one step of the missing structured-mode
`CodecV02.Decode` (spec 4.3, pinned by `TestCodecV02_Decode`): reserved
top-level fields feed the corresponding core attribute, `data` is
re-serialized to canonical bytes, the plain `extensions` field is read as
the flat extension bag, and any other field becomes an extension shaped by
its JSON value. -/
def decodeStructuredField (acc : EventContextV02 × Option String) (kv : String × JsonValue) :
    EventContextV02 × Option String :=
  let c := acc.1
  if kv.1 = "specversion" then ({ c with specVersion := jsonAsString kv.2 }, acc.2)
  else if kv.1 = "id" then ({ c with id := jsonAsString kv.2 }, acc.2)
  else if kv.1 = "type" then ({ c with type_ := jsonAsString kv.2 }, acc.2)
  else if kv.1 = "source" then ({ c with source := jsonAsString kv.2 }, acc.2)
  else if kv.1 = "time" then ({ c with time := some (jsonAsString kv.2) }, acc.2)
  else if kv.1 = "schemaurl" then ({ c with schemaURL := some (jsonAsString kv.2) }, acc.2)
  else if kv.1 = "contenttype" then ({ c with contentType := jsonAsString kv.2 }, acc.2)
  else if kv.1 = "data" then (c, some (jsonSerialize kv.2))
  else if kv.1 = "extensions" then
    match kv.2 with
    | JsonValue.obj o => ({ c with extensions := c.extensions ++ jsonFieldsToExt o }, acc.2)
    | v => ({ c with extensions := c.extensions ++ [(kv.1, jsonToExt v)] }, acc.2)
  else ({ c with extensions := c.extensions ++ [(kv.1, jsonToExt kv.2)] }, acc.2)

/-- Modelled from the spec: the missing structured-mode `CodecV02.Decode`
(spec 4.3): fold the envelope fields, fail on a missing required core
attribute. -/
def decodeStructuredV02 (m : StructuredMessage) : Except CodecError Event :=
  let r := m.body.foldl decodeStructuredField (emptyContextV02, none)
  if requiredPresent r.1 then Except.ok { context := r.1, data := r.2 }
  else Except.error CodecError.missingRequiredAttribute

/-- Encoding selector of `http.CodecV02`; the zero value behaves as binary. -/
inductive EncodingV02 where
  | defaultV02
  | binaryV02
  | structuredV02

/-- The v0.2 codec, carrying only its encoding mode. -/
structure CodecV02 where
  encoding : EncodingV02

/-- Wire message in one of the two shapes of the data model (spec 3). -/
inductive MessageV where
  | binary (m : HttpMessage)
  | structured (m : StructuredMessage)

/-- Modelled from the spec: the mode dispatch of `CodecV02.Encode`. -/
def CodecV02.encode (c : CodecV02) (e : Event) : MessageV :=
  match c.encoding with
  | EncodingV02.defaultV02 => MessageV.binary (encodeBinaryV02 e)
  | EncodingV02.binaryV02 => MessageV.binary (encodeBinaryV02 e)
  | EncodingV02.structuredV02 => MessageV.structured (encodeStructuredV02 e)

/-- Modelled from the spec: `CodecV02.Decode` dispatches on the shape of the
inbound message, not on the codec's own mode. -/
def CodecV02.decode (_ : CodecV02) (m : MessageV) : Except CodecError Event :=
  match m with
  | MessageV.binary hm => decodeBinaryV02 hm
  | MessageV.structured sm => decodeStructuredV02 sm

/-- Lower-case ASCII letter or digit — the character set of a well-formed
extension attribute-name segment. -/
def isLowerAlnumChar (c : Char) : Bool :=
  (97 ≤ c.toNat && c.toNat ≤ 122) || (48 ≤ c.toNat && c.toNat ≤ 57)

/-- Non-empty segment of lower-case letters and digits. -/
def validSeg (l : List Char) : Bool :=
  !l.isEmpty && l.all isLowerAlnumChar

/-- The key is one of the reserved v0.2 core attribute names the binary
decoder matches before treating a header as an extension. -/
def isCoreAttr (l : List Char) : Bool :=
  decide (l = "specversion".data) || decide (l = "id".data) || decide (l = "type".data) ||
    decide (l = "source".data) || decide (l = "time".data) || decide (l = "schemaurl".data)

/-- Well-formedness of one extension entry of an event handed to `Encode`
(spec section 3): the name is a non-empty lower-cased segment disjoint from
the core attribute names; a mapping value is non-empty and its child keys
are well-formed segments; the raw wire shape `strList` does not occur in an
application event. -/
def validEntryB : String × ExtValue → Bool
  | (n, ExtValue.scalar _) => validSeg n.data && !isCoreAttr n.data
  | (n, ExtValue.mapping m) =>
    validSeg n.data && !isCoreAttr n.data && !m.isEmpty &&
      m.all fun q => validSeg q.1.data
  | (_, ExtValue.strList _) => false

/-- Well-formed extension bag: every entry well formed and the attribute
names pairwise distinct (spec section 3: a mapping keyed by name). -/
def ValidExts (l : List (String × ExtValue)) : Prop :=
  l.all validEntryB = true ∧ (l.map Prod.fst).Nodup

/-- Value an extension comes back as after the binary round trip: scalars
survive, a mapping returns with each child holding the raw one-element
metadata string list of its JSON-encoded value. -/
def roundtripVal : ExtValue → ExtValue
  | ExtValue.scalar s => ExtValue.scalar s
  | ExtValue.mapping m =>
    ExtValue.mapping (m.map fun q => (q.1, ExtValue.strList [jsonValLit q.2]))
  | ExtValue.strList vs => ExtValue.strList vs

/-- First extension value stored under a name. -/
def lookupExt (l : List (String × ExtValue)) (n : String) : Option ExtValue :=
  match l with
  | [] => none
  | p :: rest => if p.1 = n then some p.2 else lookupExt rest n


/-- Go error value as the AMQP binding sees it: `kind` stands for the
dynamic Go type of the error (so Go's `==` on non-nil error interface
values is equality of `kind` and `msg`), and `msg` is what `Error()`
returns. -/
structure GoError where
  kind : String
  msg : String
deriving DecidableEq

/-- Caller context: `err` is what `ctx.Err()` returns, `none` while the
context is alive. -/
structure GoContext where
  err : Option GoError
deriving DecidableEq

/-- Message delivered by the underlying `amqp.Receiver`. -/
structure AmqpMessage where
  payload : String
deriving DecidableEq

/-- The `binding.Message` wrapper the receiver hands out. -/
structure BindingMessage where
  inner : AmqpMessage
deriving DecidableEq

/-- `NewMessage` wrapping an AMQP message as a `binding.Message`. -/
def NewMessage (m : AmqpMessage) : BindingMessage := ⟨m⟩

/-- Outcome of `receiver.Receive`: a wrapped message, `io.EOF` (the
end-of-stream signal), or an error value passed through. -/
inductive ReceiveOutcome where
  | msg (m : BindingMessage)
  | eof
  | err (e : GoError)
deriving DecidableEq

/-- The constant `serverDown` of `receiver.go`. -/
def serverDown : String := "session ended by server"

/-- `receiver.Receive` of `protocol/amqp/v2/receiver.go`, with the call to
the underlying `r.amqp.Receive(ctx, r.options)` made explicit as the input
`underlying`: on success the message is wrapped by `NewMessage`; on error,
`io.EOF` is returned when the error is the context's own error
(`err == ctx.Err()`) or when its message starts with `serverDown`; any
other error is returned unchanged. -/
def receiverReceive (ctx : GoContext) (underlying : Except GoError AmqpMessage) :
    ReceiveOutcome :=
  match underlying with
  | Except.ok m => ReceiveOutcome.msg (NewMessage m)
  | Except.error e =>
    if ctx.err = some e then ReceiveOutcome.eof
    else if goHasPre e.msg serverDown then ReceiveOutcome.eof
    else ReceiveOutcome.err e

/-- Modelled from the spec: the binding-boundary error discipline of
section 7 — an error crossing the binding interface must have been
normalized to the `TransportError` kind rather than leak the
transport-specific error type; `EndOfStream` and successful receipt are
also fine. -/
def normalizedToTransportError : ReceiveOutcome → Bool
  | ReceiveOutcome.err e => e.kind == "TransportError"
  | _ => true

/-- `Receive` on a transport error maps to `io.EOF` exactly when the error
is the context's own error or its message starts with `serverDown`. -/
theorem receive_error_eq_eof_iff (ctx : GoContext) (e : GoError) :
    receiverReceive ctx (Except.error e) = ReceiveOutcome.eof ↔
      (ctx.err = some e ∨ goHasPre e.msg serverDown = true) := by
  by_cases h1 : ctx.err = some e
  · simp [receiverReceive, h1]
  · by_cases h2 : goHasPre e.msg serverDown
    · simp [receiverReceive, h1, h2]
    · simp [receiverReceive, h1, h2]

/-- C2: whenever the underlying transport reports closure — the reported
error is the caller's context's own error, or the server-ended-session
message — `Receive` returns the end-of-stream signal `io.EOF`, not a
generic error. -/
theorem receive_closure_yields_eof (ctx : GoContext) (e : GoError)
    (h : ctx.err = some e ∨ goHasPre e.msg serverDown = true) :
    receiverReceive ctx (Except.error e) = ReceiveOutcome.eof :=
  (receive_error_eq_eof_iff ctx e).mpr h

/-- C2 witness: a canceled context whose own error is reported by the
transport yields `io.EOF`. -/
theorem receive_closure_yields_eof_witness :
    receiverReceive ⟨some ⟨"context.cancelError", "context canceled"⟩⟩
      (Except.error ⟨"context.cancelError", "context canceled"⟩) = ReceiveOutcome.eof :=
  receive_closure_yields_eof
    ⟨some ⟨"context.cancelError", "context canceled"⟩⟩
    ⟨"context.cancelError", "context canceled"⟩ (Or.inl rfl)

/-- C9: `Receive` classifies an error as closure exactly by Go identity
with the context's error or by the literal message marker; consequently a
wrapped cancellation error is passed through as a plain error, while an
unrelated error whose message merely starts with the marker is classified
as end of stream. -/
theorem receive_eof_classification :
    (∀ (ctx : GoContext) (e : GoError),
        receiverReceive ctx (Except.error e) = ReceiveOutcome.eof ↔
          (ctx.err = some e ∨ goHasPre e.msg serverDown = true))
    ∧ receiverReceive ⟨some ⟨"context.cancelError", "context canceled"⟩⟩
        (Except.error ⟨"fmt.wrapError", "receive failed: context canceled"⟩) =
      ReceiveOutcome.err ⟨"fmt.wrapError", "receive failed: context canceled"⟩
    ∧ receiverReceive ⟨none⟩
        (Except.error ⟨"errors.errorString", "session ended by server maintenance"⟩) =
      ReceiveOutcome.eof :=
  ⟨receive_error_eq_eof_iff, by rfl, by rfl⟩

/-- C7 counterexample: a non-closure AMQP failure crosses the binding
boundary with its transport-specific error kind intact — it is not
normalized to `TransportError`. -/
theorem receive_no_normalization :
    receiverReceive ⟨none⟩ (Except.error ⟨"amqp.SessionError", "amqp: session closed"⟩) =
      ReceiveOutcome.err ⟨"amqp.SessionError", "amqp: session closed"⟩
    ∧ normalizedToTransportError
        (receiverReceive ⟨none⟩
          (Except.error ⟨"amqp.SessionError", "amqp: session closed"⟩)) = false :=
  ⟨by rfl, by rfl⟩

/-- C7 amended: every `Receive` failure that is not a closure signal is
surfaced as a distinguishable error — never `io.EOF` — but the underlying
transport error value is returned unchanged, not normalized to a
`TransportError`. -/
theorem receive_other_error_passthrough (ctx : GoContext) (e : GoError)
    (h1 : ctx.err ≠ some e) (h2 : goHasPre e.msg serverDown = false) :
    receiverReceive ctx (Except.error e) = ReceiveOutcome.err e
    ∧ ReceiveOutcome.err e ≠ ReceiveOutcome.eof := by
  refine ⟨?_, by simp⟩
  simp [receiverReceive, h1, h2]

/-- C7 witness: a detached-link error is returned verbatim and is not the
end-of-stream signal. -/
theorem receive_other_error_passthrough_witness :
    receiverReceive ⟨none⟩ (Except.error ⟨"amqp.DetachError", "link detached"⟩) =
      ReceiveOutcome.err ⟨"amqp.DetachError", "link detached"⟩
    ∧ ReceiveOutcome.err ⟨"amqp.DetachError", "link detached"⟩ ≠ ReceiveOutcome.eof :=
  receive_other_error_passthrough ⟨none⟩ ⟨"amqp.DetachError", "link detached"⟩
    (by simp) (by rfl)

theorem toNat_ofNat_valid (n : Nat) (h : n < 55296) : (Char.ofNat n).toNat = n := by
  have hv : n.isValidChar := Or.inl h
  simp [Char.ofNat, hv, Char.ofNatAux, Char.toNat, UInt32.toNat, BitVec.toNat_ofNatLt]

theorem lcChar_lcChar (c : Char) : lcChar (lcChar c) = lcChar c := by
  unfold lcChar
  by_cases h : 65 ≤ c.toNat ∧ c.toNat ≤ 90
  · rw [if_pos h]
    have h1 : (Char.ofNat (c.toNat + 32)).toNat = c.toNat + 32 :=
      toNat_ofNat_valid _ (by omega)
    rw [if_neg (by omega)]
  · rw [if_neg h, if_neg h]

theorem lcChar_ucChar (c : Char) : lcChar (ucChar c) = lcChar c := by
  unfold ucChar
  by_cases h : 97 ≤ c.toNat ∧ c.toNat ≤ 122
  · rw [if_pos h]
    have h1 : (Char.ofNat (c.toNat - 32)).toNat = c.toNat - 32 :=
      toNat_ofNat_valid _ (by omega)
    unfold lcChar
    rw [if_pos (by omega), if_neg (by omega), h1]
    have h2 : c.toNat - 32 + 32 = c.toNat := by omega
    rw [h2, Char.ofNat_toNat]
  · rw [if_neg h]

theorem lcChar_of_lowerAlnum (c : Char) (h : isLowerAlnumChar c = true) : lcChar c = c := by
  simp only [isLowerAlnumChar, Bool.or_eq_true, Bool.and_eq_true, decide_eq_true_eq] at h
  unfold lcChar
  rw [if_neg (by omega)]

theorem lowerAlnum_ne_dash (c : Char) (h : isLowerAlnumChar c = true) : ¬(c = '-') := by
  intro he
  subst he
  simp [isLowerAlnumChar] at h

theorem map_lcChar_canonChars (l : List Char) :
    ∀ b, (canonChars b l).map lcChar = l.map lcChar := by
  induction l with
  | nil => intro b; rfl
  | cons c cs ih =>
    intro b
    by_cases hd : c = '-'
    · subst hd
      have hdash : lcChar '-' = '-' := by decide
      simp [canonChars, ih, hdash]
    · simp only [canonChars, if_neg hd, List.map_cons, ih]
      cases b <;> simp [lcChar_ucChar, lcChar_lcChar]

theorem map_lcChar_of_valid (l : List Char) (h : l.all isLowerAlnumChar = true) :
    l.map lcChar = l := by
  induction l with
  | nil => rfl
  | cons c cs ih =>
    simp only [List.all_cons, Bool.and_eq_true] at h
    simp [lcChar_of_lowerAlnum c h.1, ih h.2]

theorem lower_canonKey (s : String) :
    (canonicalMIMEHeaderKey s).data.map lcChar = s.data.map lcChar :=
  map_lcChar_canonChars s.data true

theorem unquoteChars_cons (c : Char) (cs : List Char) :
    unquoteChars (c :: cs) =
      if c = '"' then (if cs = [] then some [] else none)
      else if c = '\\' then
        (match cs with
         | [] => none
         | c2 :: cs2 => (unquoteChars cs2).map fun l => c2 :: l)
      else (unquoteChars cs).map fun l => c :: l := by
  cases cs <;> rfl

theorem unquoteChars_escapeChars (l : List Char) :
    unquoteChars (escapeChars l ++ ['"']) = some l := by
  induction l with
  | nil => rfl
  | cons c cs ih =>
    by_cases h : c = '"' ∨ c = '\\'
    · simp only [escapeChars, if_pos h, List.cons_append]
      simp [unquoteChars, ih]
    · push_neg at h
      have hep : escapeChars (c :: cs) = c :: escapeChars cs := by
        simp [escapeChars, h.1, h.2]
      rw [hep, List.cons_append, unquoteChars_cons, if_neg h.1, if_neg h.2, ih]
      rfl

theorem jsonUnquote_jsonQuote (s : String) : jsonUnquote (jsonQuote s) = some s := by
  show (unquoteChars (escapeChars s.data ++ ['"'])).map (fun l => (⟨l⟩ : String)) = some s
  rw [unquoteChars_escapeChars]
  rfl

theorem decodeScalarV_jsonQuote (s : String) : decodeScalarV (jsonQuote s) = ExtValue.scalar s := by
  unfold decodeScalarV
  rw [jsonUnquote_jsonQuote]

theorem breakDash_no_dash (l : List Char) (h : l.all isLowerAlnumChar = true) :
    breakDash l = (l, none) := by
  induction l with
  | nil => rfl
  | cons c cs ih =>
    simp only [List.all_cons, Bool.and_eq_true] at h
    simp [breakDash, lowerAlnum_ne_dash c h.1, ih h.2]

theorem breakDash_split (l₁ l₂ : List Char) (h : l₁.all isLowerAlnumChar = true) :
    breakDash (l₁ ++ '-' :: l₂) = (l₁, some l₂) := by
  induction l₁ with
  | nil => simp [breakDash]
  | cons c cs ih =>
    simp only [List.all_cons, Bool.and_eq_true] at h
    simp [breakDash, lowerAlnum_ne_dash c h.1, ih h.2]

theorem dropLit_ce (l : List Char) :
    dropLit ['c', 'e', '-'] ('c' :: 'e' :: '-' :: l) = some l := rfl

theorem lower_key_ce_name (n : String) (hn : n.data.all isLowerAlnumChar = true) :
    (canonicalMIMEHeaderKey ("ce-" ++ n)).data.map lcChar = 'c' :: 'e' :: '-' :: n.data := by
  rw [lower_canonKey]
  have hd : (("ce-" ++ n) : String).data = "ce-".data ++ n.data := rfl
  rw [hd, List.map_append, map_lcChar_of_valid _ hn]
  rfl

theorem lower_key_ce_name_child (n c : String) (hn : n.data.all isLowerAlnumChar = true)
    (hc : c.data.all isLowerAlnumChar = true) :
    (canonicalMIMEHeaderKey ("ce-" ++ n ++ "-" ++ c)).data.map lcChar
    = 'c' :: 'e' :: '-' :: (n.data ++ '-' :: c.data) := by
  rw [lower_canonKey]
  have hd : (("ce-" ++ n ++ "-" ++ c) : String).data
      = (("ce-".data ++ n.data) ++ "-".data) ++ c.data := rfl
  have h1 : ("ce-" : String).data.map lcChar = ['c', 'e', '-'] := by decide
  have h2 : ("-" : String).data.map lcChar = ['-'] := by decide
  rw [hd, List.map_append, List.map_append, List.map_append,
    map_lcChar_of_valid _ hn, map_lcChar_of_valid _ hc, h1, h2]
  simp

theorem isCoreAttr_false_elim (l : List Char) (h : isCoreAttr l = false) :
    ¬(l = ['s', 'p', 'e', 'c', 'v', 'e', 'r', 's', 'i', 'o', 'n']) ∧ ¬(l = ['i', 'd']) ∧
      ¬(l = ['t', 'y', 'p', 'e']) ∧ ¬(l = ['s', 'o', 'u', 'r', 'c', 'e']) ∧
      ¬(l = ['t', 'i', 'm', 'e']) ∧ ¬(l = ['s', 'c', 'h', 'e', 'm', 'a', 'u', 'r', 'l']) := by
  simp only [isCoreAttr, Bool.or_eq_false_iff, decide_eq_false_iff_not] at h
  tauto

theorem dH_specversion (acc : EventContextV02) (v : String) (vs : List String) :
    decodeHeader acc (canonicalMIMEHeaderKey "ce-specversion", v :: vs)
    = { acc with specVersion := v } := rfl

theorem dH_id (acc : EventContextV02) (v : String) (vs : List String) :
    decodeHeader acc (canonicalMIMEHeaderKey "ce-id", v :: vs)
    = { acc with id := v } := rfl

theorem dH_time (acc : EventContextV02) (v : String) (vs : List String) :
    decodeHeader acc (canonicalMIMEHeaderKey "ce-time", v :: vs)
    = { acc with time := some v } := rfl

theorem dH_type (acc : EventContextV02) (v : String) (vs : List String) :
    decodeHeader acc (canonicalMIMEHeaderKey "ce-type", v :: vs)
    = { acc with type_ := v } := rfl

theorem dH_source (acc : EventContextV02) (v : String) (vs : List String) :
    decodeHeader acc (canonicalMIMEHeaderKey "ce-source", v :: vs)
    = { acc with source := v } := rfl

theorem dH_schemaurl (acc : EventContextV02) (v : String) (vs : List String) :
    decodeHeader acc (canonicalMIMEHeaderKey "ce-schemaurl", v :: vs)
    = { acc with schemaURL := some v } := rfl

theorem dH_contentType (acc : EventContextV02) (v : String) (vs : List String) :
    decodeHeader acc ("Content-Type", v :: vs)
    = { acc with contentType := v } := rfl

theorem dH_ext_single (acc : EventContextV02) (n : String) (vs : List String)
    (hseg : validSeg n.data = true) (hcore : isCoreAttr n.data = false) :
    decodeHeader acc (canonicalMIMEHeaderKey ("ce-" ++ n), vs)
    = { acc with extensions := acc.extensions ++ [(n, decodeScalarV (vs.headD ""))] } := by
  have hall : n.data.all isLowerAlnumChar = true := by
    simp only [validSeg, Bool.and_eq_true] at hseg
    exact hseg.2
  obtain ⟨h1, h2, h3, h4, h5, h6⟩ := isCoreAttr_false_elim n.data hcore
  have hct : ¬(('c' :: 'e' :: '-' :: n.data) = "content-type".data) := by simp
  simp only [decodeHeader, lower_key_ce_name n hall, decodeHeaderCore]
  rw [if_neg hct]
  simp only [dropLit_ce, breakDash_no_dash n.data hall]
  rw [if_neg h1, if_neg h2, if_neg h3, if_neg h4, if_neg h5, if_neg h6]

theorem dH_ext_child (acc : EventContextV02) (n c : String) (vs : List String)
    (hn : n.data.all isLowerAlnumChar = true) (hc : c.data.all isLowerAlnumChar = true) :
    decodeHeader acc (canonicalMIMEHeaderKey ("ce-" ++ n ++ "-" ++ c), vs)
    = { acc with extensions := addChild acc.extensions n c vs } := by
  have hct : ¬(('c' :: 'e' :: '-' :: (n.data ++ '-' :: c.data)) = "content-type".data) := by
    simp
  simp only [decodeHeader, lower_key_ce_name_child n c hn hc, decodeHeaderCore]
  rw [if_neg hct]
  simp only [dropLit_ce, breakDash_split n.data c.data hn]

theorem addChild_missing (l : List (String × ExtValue)) (n c : String) (vs : List String)
    (h : n ∉ l.map Prod.fst) :
    addChild l n c vs = l ++ [(n, ExtValue.mapping [(c, ExtValue.strList vs)])] := by
  induction l with
  | nil => rfl
  | cons p rest ih =>
    obtain ⟨pn, pv⟩ := p
    simp only [List.map_cons, List.mem_cons] at h
    push_neg at h
    simp only [addChild, if_neg (Ne.symm h.1), List.cons_append]
    rw [ih h.2]

theorem addChild_found (l : List (String × ExtValue)) (n c : String) (vs : List String)
    (done : List (String × ExtValue)) (h : n ∉ l.map Prod.fst) :
    addChild (l ++ [(n, ExtValue.mapping done)]) n c vs
    = l ++ [(n, ExtValue.mapping (done ++ [(c, ExtValue.strList vs)]))] := by
  induction l with
  | nil => simp [addChild]
  | cons p rest ih =>
    obtain ⟨pn, pv⟩ := p
    simp only [List.map_cons, List.mem_cons] at h
    push_neg at h
    simp only [List.cons_append, addChild, if_neg (Ne.symm h.1)]
    exact congrArg (fun x => (pn, pv) :: x) (ih h.2)

theorem foldl_children (n : String) (hn : n.data.all isLowerAlnumChar = true)
    (m : List (String × ExtValue)) :
    ∀ (acc : EventContextV02) (pre done : List (String × ExtValue)),
      acc.extensions = pre ++ [(n, ExtValue.mapping done)] →
      n ∉ pre.map Prod.fst →
      (∀ q ∈ m, validSeg q.1.data = true) →
      List.foldl decodeHeader acc
        (m.map fun q => (canonicalMIMEHeaderKey ("ce-" ++ n ++ "-" ++ q.1), [jsonValLit q.2]))
      = { acc with extensions :=
            pre ++ [(n, ExtValue.mapping
              (done ++ m.map fun q => (q.1, ExtValue.strList [jsonValLit q.2])))] } := by
  induction m with
  | nil =>
    intro acc pre done hacc _ _
    simp only [List.map_nil, List.foldl_nil, List.append_nil]
    rw [← hacc]
  | cons q mrest ih =>
    intro acc pre done hacc hfresh hval
    obtain ⟨qk, qv⟩ := q
    have hq : validSeg qk.data = true := hval (qk, qv) (List.mem_cons_self _ _)
    have hqall : qk.data.all isLowerAlnumChar = true := by
      simp only [validSeg, Bool.and_eq_true] at hq
      exact hq.2
    simp only [List.map_cons, List.foldl_cons]
    rw [dH_ext_child acc n qk [jsonValLit qv] hn hqall, hacc,
      addChild_found pre n qk [jsonValLit qv] done hfresh]
    rw [ih _ pre (done ++ [(qk, ExtValue.strList [jsonValLit qv])]) rfl hfresh
      (fun q hq => hval q (List.mem_cons_of_mem _ hq))]
    simp [List.append_assoc]

theorem foldl_extHeaders (exts : List (String × ExtValue)) :
    ∀ (acc : EventContextV02),
      exts.all validEntryB = true →
      (exts.map Prod.fst).Nodup →
      (∀ p ∈ exts, p.1 ∉ acc.extensions.map Prod.fst) →
      List.foldl decodeHeader acc ((exts.map fun p => encodeExtHeaders p.1 p.2).flatten)
      = { acc with extensions :=
            acc.extensions ++ exts.map fun p => (p.1, roundtripVal p.2) } := by
  induction exts with
  | nil =>
    intro acc _ _ _
    simp only [List.map_nil, List.flatten_nil, List.foldl_nil, List.append_nil]
  | cons p rest ih =>
    intro acc hall hnodup hfresh
    obtain ⟨pn, pv⟩ := p
    have hvp : validEntryB (pn, pv) = true := by
      simp only [List.all_cons, Bool.and_eq_true] at hall
      exact hall.1
    have hallr : rest.all validEntryB = true := by
      simp only [List.all_cons, Bool.and_eq_true] at hall
      exact hall.2
    have hnodupr : (rest.map Prod.fst).Nodup := by
      simp only [List.map_cons, List.nodup_cons] at hnodup
      exact hnodup.2
    have hpn_rest : pn ∉ rest.map Prod.fst := by
      simp only [List.map_cons, List.nodup_cons] at hnodup
      exact hnodup.1
    have hfresh_head : pn ∉ acc.extensions.map Prod.fst :=
      hfresh (pn, pv) (List.mem_cons_self _ _)
    simp only [List.map_cons, List.flatten_cons]
    rw [List.foldl_append]
    cases pv with
    | scalar s =>
      have hseg : validSeg pn.data = true := by
        simp only [validEntryB, Bool.and_eq_true] at hvp
        exact hvp.1
      have hcore : isCoreAttr pn.data = false := by
        simp only [validEntryB, Bool.and_eq_true, Bool.not_eq_true'] at hvp
        exact hvp.2
      rw [show encodeExtHeaders pn (ExtValue.scalar s)
          = [(canonicalMIMEHeaderKey ("ce-" ++ pn), [jsonQuote s])] from rfl]
      simp only [List.foldl_cons, List.foldl_nil]
      rw [dH_ext_single acc pn [jsonQuote s] hseg hcore]
      rw [show ([jsonQuote s] : List String).headD "" = jsonQuote s from rfl,
        decodeScalarV_jsonQuote]
      rw [ih _ hallr hnodupr ?hfr]
      case hfr =>
        intro q hq
        simp only [List.map_append, List.mem_append]
        push_neg
        refine ⟨fun hmem => ?_, ?_⟩
        · exact absurd hmem (hfresh q (List.mem_cons_of_mem _ hq))
        · intro hmem
          simp only [List.map_cons, List.map_nil, List.mem_singleton] at hmem
          exact hpn_rest (hmem ▸ List.mem_map_of_mem Prod.fst hq)
      simp [roundtripVal, List.append_assoc]
    | strList vs =>
      exact absurd hvp (by simp [validEntryB])
    | mapping m =>
      have hseg : validSeg pn.data = true := by
        simp only [validEntryB, Bool.and_eq_true] at hvp
        exact hvp.1.1.1
      have hnall : pn.data.all isLowerAlnumChar = true := by
        simp only [validSeg, Bool.and_eq_true] at hseg
        exact hseg.2
      have hchildren : ∀ q ∈ m, validSeg q.1.data = true := by
        simp only [validEntryB, Bool.and_eq_true, List.all_eq_true] at hvp
        exact fun q hq => hvp.2 q hq
      have hm_ne : m ≠ [] := by
        simp only [validEntryB, Bool.and_eq_true, Bool.not_eq_true'] at hvp
        intro hm
        rw [hm] at hvp
        simp at hvp
      obtain ⟨q, mrest, rfl⟩ : ∃ q mrest, m = q :: mrest := by
        cases m with
        | nil => exact absurd rfl hm_ne
        | cons a b => exact ⟨a, b, rfl⟩
      obtain ⟨qk, qv⟩ := q
      have hqall : qk.data.all isLowerAlnumChar = true := by
        have := hchildren (qk, qv) (List.mem_cons_self _ _)
        simp only [validSeg, Bool.and_eq_true] at this
        exact this.2
      rw [show encodeExtHeaders pn (ExtValue.mapping ((qk, qv) :: mrest))
          = (canonicalMIMEHeaderKey ("ce-" ++ pn ++ "-" ++ qk), [jsonValLit qv])
            :: mrest.map fun q =>
              (canonicalMIMEHeaderKey ("ce-" ++ pn ++ "-" ++ q.1), [jsonValLit q.2]) from rfl]
      simp only [List.foldl_cons]
      rw [dH_ext_child acc pn qk [jsonValLit qv] hnall hqall,
        addChild_missing acc.extensions pn qk [jsonValLit qv] hfresh_head]
      rw [foldl_children pn hnall mrest _ acc.extensions
        [(qk, ExtValue.strList [jsonValLit qv])] rfl hfresh_head
        (fun q hq => hchildren q (List.mem_cons_of_mem _ hq))]
      rw [ih _ hallr hnodupr ?hfr2]
      case hfr2 =>
        intro q hq
        simp only [List.map_append, List.mem_append]
        push_neg
        refine ⟨fun hmem => ?_, ?_⟩
        · exact absurd hmem (hfresh q (List.mem_cons_of_mem _ hq))
        · intro hmem
          simp only [List.map_cons, List.map_nil, List.mem_singleton] at hmem
          exact hpn_rest (hmem ▸ List.mem_map_of_mem Prod.fst hq)
      simp [roundtripVal, List.append_assoc]

theorem decodeBinaryCtx_encode (e : Event) (hv : ValidExts e.context.extensions) :
    decodeBinaryCtx (encodeBinaryV02 e)
    = { specVersion := "0.2", type_ := e.context.type_, source := e.context.source,
        id := e.context.id, time := e.context.time, schemaURL := e.context.schemaURL,
        contentType := if e.context.contentType = "" then "application/json"
          else e.context.contentType,
        extensions := e.context.extensions.map fun p => (p.1, roundtripVal p.2) } := by
  obtain ⟨hall, hnodup⟩ := hv
  unfold decodeBinaryCtx encodeBinaryV02
  rcases htime : e.context.time with _ | t <;>
    rcases hsch : e.context.schemaURL with _ | u <;>
    simp only [htime, hsch, List.foldl_append, List.foldl_cons, List.foldl_nil,
      dH_specversion, dH_id, dH_time, dH_type, dH_source, dH_schemaurl, dH_contentType] <;>
    rw [foldl_extHeaders _ _ hall hnodup (by intro p hp; simp [emptyContextV02])] <;>
    simp [emptyContextV02]

theorem lookupExt_map_roundtrip (l : List (String × ExtValue)) (n : String) :
    lookupExt (l.map fun p => (p.1, roundtripVal p.2)) n
    = (lookupExt l n).map roundtripVal := by
  induction l with
  | nil => rfl
  | cons p rest ih =>
    obtain ⟨pn, pv⟩ := p
    by_cases h : pn = n
    · simp [lookupExt, h]
    · simp [lookupExt, h, ih]

theorem lookupExt_mem (l : List (String × ExtValue)) (n : String) (v : ExtValue)
    (h : lookupExt l n = some v) : (n, v) ∈ l := by
  induction l with
  | nil => exact absurd h (by simp [lookupExt])
  | cons p rest ih =>
    obtain ⟨pn, pv⟩ := p
    by_cases hn : pn = n
    · subst hn
      simp only [lookupExt, eq_self_iff_true, if_true, Option.some.injEq] at h
      subst h
      exact List.mem_cons_self _ _
    · simp only [lookupExt, if_neg hn] at h
      exact List.mem_cons_of_mem _ (ih h)

theorem decodeHeader_lowerKey (acc : EventContextV02) (k : String) (vs : List String) :
    decodeHeader acc (lowerKey k, vs) = decodeHeader acc (k, vs) := by
  unfold decodeHeader lowerKey
  have hl : ((⟨k.data.map lcChar⟩ : String), vs).1.data.map lcChar = k.data.map lcChar := by
    show (k.data.map lcChar).map lcChar = k.data.map lcChar
    rw [List.map_map]
    exact List.map_congr_left fun c _ => lcChar_lcChar c
  rw [hl]

theorem decodeHeader_canonKey (acc : EventContextV02) (k : String) (vs : List String) :
    decodeHeader acc (canonicalMIMEHeaderKey k, vs) = decodeHeader acc (k, vs) := by
  unfold decodeHeader
  rw [show ((canonicalMIMEHeaderKey k, vs).1.data.map lcChar) = k.data.map lcChar from
    lower_canonKey k]

theorem foldl_mapKeys (f : String → String)
    (hf : ∀ (acc : EventContextV02) (k : String) (vs : List String),
      decodeHeader acc (f k, vs) = decodeHeader acc (k, vs))
    (l : List (String × List String)) :
    ∀ acc, List.foldl decodeHeader acc (l.map fun p => (f p.1, p.2))
      = List.foldl decodeHeader acc l := by
  induction l with
  | nil => intro acc; rfl
  | cons p rest ih =>
    intro acc
    obtain ⟨pk, pv⟩ := p
    simp only [List.map_cons, List.foldl_cons, hf, ih]

/-- C3: for every valid event carrying an extension whose value is a
one-level mapping of scalars, the binary round trip is not value
preserving: the decoded extension value is a mapping holding, for each
child key, the raw one-element metadata string list of the JSON-encoded
child value, not the original scalar. -/
theorem binary_roundtrip_mapping_ext_raw_lists (e : Event) (name : String)
    (m : List (String × ExtValue))
    (hv : ValidExts e.context.extensions)
    (hlook : lookupExt e.context.extensions name = some (ExtValue.mapping m))
    (hscal : ∀ q ∈ m, ∃ s, q.2 = ExtValue.scalar s) :
    lookupExt (decodeBinaryCtx (encodeBinaryV02 e)).extensions name
      = some (ExtValue.mapping (m.map fun q => (q.1, ExtValue.strList [jsonValLit q.2])))
    ∧ ExtValue.mapping (m.map fun q => (q.1, ExtValue.strList [jsonValLit q.2]))
      ≠ ExtValue.mapping m := by
  constructor
  · rw [decodeBinaryCtx_encode e hv]
    show lookupExt (e.context.extensions.map fun p => (p.1, roundtripVal p.2)) name = _
    rw [lookupExt_map_roundtrip, hlook]
    rfl
  · have hmem := lookupExt_mem _ _ _ hlook
    have hvp : validEntryB (name, ExtValue.mapping m) = true := by
      have hall := hv.1
      rw [List.all_eq_true] at hall
      exact hall _ hmem
    have hm_ne : m ≠ [] := by
      simp only [validEntryB, Bool.and_eq_true, Bool.not_eq_true'] at hvp
      intro hm
      rw [hm] at hvp
      simp at hvp
    cases m with
    | nil => exact absurd rfl hm_ne
    | cons q mrest =>
      obtain ⟨s, hs⟩ := hscal q (List.mem_cons_self _ _)
      intro heq
      injection heq with h1
      rw [List.map_cons] at h1
      injection h1 with h2 h3
      have h4 := congrArg Prod.snd h2
      rw [hs] at h4
      exact ExtValue.noConfusion h4

/-- C3 witness: the mapping extension `pair = a:apple, b:banana` of a
concrete valid event decodes, after the binary round trip, to raw
string-list children. -/
theorem binary_roundtrip_mapping_ext_raw_lists_witness :
    lookupExt
      (decodeBinaryCtx (encodeBinaryV02
        { context :=
            { specVersion := "0.2", type_ := "com.example.test",
              source := "http://example.com/source", id := "ABC-123", time := none,
              schemaURL := none, contentType := "application/json",
              extensions := [("test", ExtValue.scalar "extended"),
                ("pair", ExtValue.mapping [("a", ExtValue.scalar "apple"),
                  ("b", ExtValue.scalar "banana")])] },
          data := none })).extensions "pair"
      = some (ExtValue.mapping
          ([("a", ExtValue.scalar "apple"), ("b", ExtValue.scalar "banana")].map
            fun q => (q.1, ExtValue.strList [jsonValLit q.2])))
    ∧ ExtValue.mapping
        ([("a", ExtValue.scalar "apple"), ("b", ExtValue.scalar "banana")].map
          fun q => (q.1, ExtValue.strList [jsonValLit q.2]))
      ≠ ExtValue.mapping [("a", ExtValue.scalar "apple"), ("b", ExtValue.scalar "banana")] :=
  binary_roundtrip_mapping_ext_raw_lists _ "pair"
    [("a", ExtValue.scalar "apple"), ("b", ExtValue.scalar "banana")]
    ⟨by rfl, by decide⟩ (by rfl)
    (by
      intro q hq
      simp only [List.mem_cons, List.not_mem_nil, or_false] at hq
      rcases hq with rfl | rfl
      · exact ⟨"apple", rfl⟩
      · exact ⟨"banana", rfl⟩)

/-- C8: binary Decode looks metadata headers up case-insensitively — a
message whose header keys are lower-cased, and one whose keys carry the
canonical `Ce-` capitalization, decode to the same result. -/
theorem decode_binary_case_insensitive :
    (∀ (h : List (String × List String)) (b : String),
        decodeBinaryV02 { header := h.map fun p => (lowerKey p.1, p.2), body := b }
        = decodeBinaryV02 { header := h, body := b })
    ∧ (∀ (h : List (String × List String)) (b : String),
        decodeBinaryV02 { header := h.map fun p => (canonicalMIMEHeaderKey p.1, p.2), body := b }
        = decodeBinaryV02 { header := h, body := b }) := by
  constructor <;> intro h b <;> simp only [decodeBinaryV02, decodeBinaryCtx] <;>
    rw [foldl_mapKeys _ (by
      first
        | exact fun acc k vs => decodeHeader_lowerKey acc k vs
        | exact fun acc k vs => decodeHeader_canonKey acc k vs) h]

/-- C10: binary Decode fills the decoded content type from the unprefixed
`Content-Type` header; the binary round trip therefore returns
`application/json` for an event that declared no content type. -/
theorem decode_binary_contentType_default :
    (∀ (acc : EventContextV02) (v : String) (vs : List String),
        decodeHeader acc ("Content-Type", v :: vs) = { acc with contentType := v })
    ∧ (∀ e : Event,
        (decodeBinaryCtx (encodeBinaryV02 e)).contentType
        = if e.context.contentType = "" then "application/json" else e.context.contentType)
    ∧ decodeBinaryV02 (encodeBinaryV02
        { context :=
            { emptyContextV02 with
              type_ := "com.example.test"
              source := "http://example.com/source"
              id := "ABC-123" },
          data := none })
      = Except.ok
          { context :=
              { specVersion := "0.2", type_ := "com.example.test",
                source := "http://example.com/source", id := "ABC-123", time := none,
                schemaURL := none, contentType := "application/json", extensions := [] },
            data := none } := by
  refine ⟨fun acc v vs => dH_contentType acc v vs, ?_, by rfl⟩
  intro e
  unfold decodeBinaryCtx encodeBinaryV02
  rw [List.foldl_append]
  simp only [List.foldl_cons, List.foldl_nil, dH_contentType]

/-- C4: binary Encode of the minimal v0.2 event produces exactly the five
metadata entries `Ce-Specversion`, `Ce-Id`, `Ce-Type`, `Ce-Source` and
`Content-Type = application/json` — the JSON content type being emitted
although the event declares none and carries no data — and an empty
payload. -/
theorem encode_binary_minimal :
    encodeBinaryV02
      { context :=
          { emptyContextV02 with
            type_ := "com.example.test"
            source := "http://example.com/source"
            id := "ABC-123" },
        data := none } =
    { header := [("Ce-Specversion", ["0.2"]), ("Ce-Id", ["ABC-123"]),
                 ("Ce-Type", ["com.example.test"]),
                 ("Ce-Source", ["http://example.com/source"]),
                 ("Content-Type", ["application/json"])],
      body := "" } := by rfl

/-- C5: binary Encode flattens a mapping extension exactly one level: the
nested mapping `a:apple, b:banana, c:(d:dog, e:eel)` yields exactly the
three entries `Ce-Asmap-A`, `Ce-Asmap-B` and `Ce-Asmap-C`, the latter one
JSON object literal; the full test event encodes to exactly the expected
message. -/
theorem encode_binary_nested_mapping :
    encodeExtHeaders "asmap"
      (ExtValue.mapping [("a", ExtValue.scalar "apple"), ("b", ExtValue.scalar "banana"),
        ("c", ExtValue.mapping [("d", ExtValue.scalar "dog"), ("e", ExtValue.scalar "eel")])]) =
    [("Ce-Asmap-A", ["\"apple\""]), ("Ce-Asmap-B", ["\"banana\""]),
     ("Ce-Asmap-C", ["\x7b\"d\":\"dog\",\"e\":\"eel\"\x7d"])]
    ∧ encodeBinaryV02
      { context :=
          { specVersion := "", type_ := "com.example.test",
            source := "http://example.com/source", id := "ABC-123",
            time := some "2018-04-05T17:31:00Z",
            schemaURL := some "http://example.com/schema",
            contentType := "application/json",
            extensions := [("test", ExtValue.scalar "extended"),
              ("asmap", ExtValue.mapping [("a", ExtValue.scalar "apple"),
                ("b", ExtValue.scalar "banana"),
                ("c", ExtValue.mapping [("d", ExtValue.scalar "dog"),
                  ("e", ExtValue.scalar "eel")])])] },
        data := some "\x7b\"hello\":\"world\"\x7d" } =
    { header := [("Ce-Specversion", ["0.2"]), ("Ce-Id", ["ABC-123"]),
                 ("Ce-Time", ["2018-04-05T17:31:00Z"]),
                 ("Ce-Type", ["com.example.test"]),
                 ("Ce-Source", ["http://example.com/source"]),
                 ("Ce-Schemaurl", ["http://example.com/schema"]),
                 ("Ce-Test", ["\"extended\""]),
                 ("Ce-Asmap-A", ["\"apple\""]), ("Ce-Asmap-B", ["\"banana\""]),
                 ("Ce-Asmap-C", ["\x7b\"d\":\"dog\",\"e\":\"eel\"\x7d"]),
                 ("Content-Type", ["application/json"])],
      body := "\x7b\"hello\":\"world\"\x7d" } :=
  ⟨by rfl, by rfl⟩

/-- C6: structured Encode of the minimal v0.2 event produces content type
`application/cloudevents+json` and an envelope carrying exactly the four
fields `specversion`, `id`, `type` and `source`. -/
theorem encode_structured_minimal :
    encodeStructuredV02
      { context :=
          { emptyContextV02 with
            type_ := "com.example.test"
            source := "http://example.com/source"
            id := "ABC-123" },
        data := none } =
    { contentType := "application/cloudevents+json",
      body := [("specversion", JsonValue.str "0.2"), ("id", JsonValue.str "ABC-123"),
               ("type", JsonValue.str "com.example.test"),
               ("source", JsonValue.str "http://example.com/source")] } := by rfl

/-- C1: evaluation at the failing input — structured Encode nests the
scalar extension `test = extended` under the reserved key `-`, which
structured Decode does not recognize, so the structured round trip returns
the extension bag `- = (test = extended)` instead of the original
`test = extended`; the round trip is not extension preserving even for
scalar extensions. -/
theorem structured_roundtrip_drops_extensions :
    decodeStructuredV02 (encodeStructuredV02
      { context :=
          { specVersion := "0.2", type_ := "com.example.test",
            source := "http://example.com/source", id := "ABC-123", time := none,
            schemaURL := none, contentType := "",
            extensions := [("test", ExtValue.scalar "extended")] },
        data := none })
    = Except.ok
        { context :=
            { specVersion := "0.2", type_ := "com.example.test",
              source := "http://example.com/source", id := "ABC-123", time := none,
              schemaURL := none, contentType := "",
              extensions := [("-", ExtValue.mapping [("test", ExtValue.scalar "extended")])] },
          data := none }
    ∧ ([(("-" : String), ExtValue.mapping [("test", ExtValue.scalar "extended")])]
        : List (String × ExtValue)) ≠ [("test", ExtValue.scalar "extended")] := by
  refine ⟨by rfl, ?_⟩
  intro h
  injection h with h1 h2
  have h3 := congrArg Prod.snd h1
  exact ExtValue.noConfusion h3
